import Mathlib

/-!
Verification of the typing-timing and frame-synthesis pipeline of the
code-to-video generator (`code_to_video.py`).

The Python source is shallowly embedded: pure functions become Lean
functions over `ℚ` (exact rational arithmetic stands in for Python
floats), strings become `List Char`, and every call to the process-wide
Gaussian randomness source is made explicit by threading a `RandState`
and taking the standard-normal draw from its stream
(`random.gauss(0, s) = s * z` for a standard draw `z`).  Python's
`int(...)` truncation toward zero is `pyInt`.
-/

namespace CodeToVideo

/-- Explicit model of the shared randomness source: a stream of
standard-normal draws together with a cursor.  `random.gauss(0, sigma)`
consumes one draw `z` and returns `sigma * z`. -/
structure RandState where
  stream : ℕ → ℚ
  idx : ℕ

/-- One call to `random.gauss(0, sigma)`. -/
def randGauss (sigma : ℚ) (g : RandState) : ℚ × RandState :=
  (sigma * g.stream g.idx, ⟨g.stream, g.idx + 1⟩)

/-- The constructor arguments of `TypingRealism.__init__`. -/
structure TypingRealism where
  base_speed : ℚ
  realistic : Bool
  randomness : ℚ

/-- `self.key_difficulty`: the QWERTY difficulty table, in source order
(dict keys are unique, so order is irrelevant for lookup). -/
def key_difficulty_table : List (Char × ℚ) :=
  [ ('a', 1.0), ('s', 1.0), ('d', 1.0), ('f', 1.0),
    ('j', 1.0), ('k', 1.0), ('l', 1.0), (';', 1.0),
    ('q', 1.3), ('w', 1.2), ('e', 1.1), ('r', 1.1), ('t', 1.2),
    ('y', 1.2), ('u', 1.1), ('i', 1.1), ('o', 1.2), ('p', 1.3),
    ('z', 1.4), ('x', 1.3), ('c', 1.2), ('v', 1.2), ('b', 1.3),
    ('n', 1.3), ('m', 1.2), (',', 1.2), ('.', 1.3), ('/', 1.4),
    ('g', 1.1), ('h', 1.1),
    ('1', 1.8), ('2', 1.6), ('3', 1.5), ('4', 1.4), ('5', 1.4),
    ('6', 1.4), ('7', 1.4), ('8', 1.5), ('9', 1.6), ('0', 1.8),
    ('!', 2.2), ('@', 2.0), ('#', 1.9), ('$', 1.8), ('%', 1.8),
    ('^', 1.8), ('&', 1.8), ('*', 1.9), ('(', 2.0), (')', 2.2),
    ('-', 1.5), ('_', 2.0), ('=', 1.6), ('+', 2.1),
    ('[', 1.7), (']', 1.8), ('{', 2.2), ('}', 2.3),
    ('\\', 1.9), ('|', 2.4), (Char.ofNat 39, 1.4), (Char.ofNat 34, 1.8),
    (Char.ofNat 96, 1.7), ('~', 2.1), ('<', 1.6), ('>', 1.7),
    ('?', 1.8), (':', 1.6),
    (' ', 0.9), ('\t', 1.1), ('\n', 1.2) ]

/-- `self.key_difficulty.get(char.lower(), 1.5)`. -/
def key_difficulty (c : Char) : ℚ :=
  match key_difficulty_table.find? (fun e => e.1 == c.toLower) with
  | some e => e.2
  | none => 1.5

/-- `p.isPrefixOf s` for character lists, written out. -/
def listStartsWith : List Char → List Char → Bool
  | [], _ => true
  | _ :: _, [] => false
  | a :: as, b :: bs => a == b && listStartsWith as bs

/-- Python's substring test `p in s`. -/
def isSubstring (p : List Char) : List Char → Bool
  | [] => p.isEmpty
  | c :: rest => listStartsWith p (c :: rest) || isSubstring p rest

/-- `self.fast_patterns`, in insertion (= iteration) order. -/
def fast_patterns : List (List Char × ℚ) :=
  [ ("()".data, 0.8), ("[]".data, 0.8), ("\x7b\x7d".data, 0.8),
    ("\x22\x22".data, 0.8), ("\x27\x27".data, 0.8),
    ("->".data, 0.7), ("=>".data, 0.7), ("==".data, 0.7), ("!=".data, 0.8),
    ("<=".data, 0.8), (">=".data, 0.8),
    ("&&".data, 0.8), ("||".data, 0.8), ("++".data, 0.8), ("--".data, 0.8),
    ("def ".data, 0.6), ("function".data, 0.7), ("const ".data, 0.7),
    ("let ".data, 0.6),
    ("import ".data, 0.7), ("from ".data, 0.7), ("return ".data, 0.7),
    ("if ".data, 0.6), ("else".data, 0.7), ("for ".data, 0.6),
    ("while ".data, 0.7),
    ("true".data, 0.7), ("false".data, 0.7), ("null".data, 0.7),
    ("undefined".data, 0.8) ]

/-- `self.slow_patterns`, in insertion (= iteration) order. -/
def slow_patterns : List (List Char × ℚ) :=
  [ ("/*".data, 1.3), ("*/".data, 1.3), ("<!--".data, 1.5), ("-->".data, 1.5),
    ("TODO".data, 1.4), ("FIXME".data, 1.4), ("NOTE".data, 1.3),
    ("console.log".data, 1.2), ("print(".data, 1.1), ("printf".data, 1.2) ]

/-- The context window `context[max(0, position-10):position+10]`
(truncated `Nat` subtraction already realises the `max(0, ...)`). -/
def windowAt (context : List Char) (position : ℕ) : List Char :=
  (context.drop (position - 10)).take ((position + 10) - (position - 10))

/-- The fast-pattern loop of `get_character_delay`: starting from 1.0,
take `min` with the multiplier of the first matching table entry and
`break` (so entries after the first match are never consulted). -/
def fast_pattern_mult (window : List Char) : ℚ :=
  match fast_patterns.find? (fun e => isSubstring e.1 window) with
  | some e => min 1 e.2
  | none => 1

/-- The slow-pattern loop of `get_character_delay`: take `max` with the
multiplier of the first matching table entry and `break`. -/
def slow_pattern_adjust (m : ℚ) (window : List Char) : ℚ :=
  match slow_patterns.find? (fun e => isSubstring e.1 window) with
  | some e => max m e.2
  | none => m

/-- The combined `pattern_multiplier` computed inside
`get_character_delay` when `realistic` is set. -/
def pattern_multiplier (context : List Char) (position : ℕ) : ℚ :=
  slow_pattern_adjust (fast_pattern_mult (windowAt context position))
    (windowAt context position)

/-- `TypingRealism.get_character_delay`.  Returns the delay together
with the advanced randomness state; the Gaussian draw is consumed only
when `randomness > 0`, exactly as in the source. -/
def get_character_delay (tr : TypingRealism) (char : Char)
    (context : List Char) (position : ℕ) (g : RandState) : ℚ × RandState :=
  let base_delay : ℚ := 1 / tr.base_speed
  let adjusted_delay : ℚ :=
    if tr.realistic then
      base_delay * key_difficulty char * pattern_multiplier context position
    else base_delay
  let withNoise : ℚ × RandState :=
    if tr.randomness > 0 then
      let v := randGauss (adjusted_delay * 0.3 * tr.randomness) g
      (adjusted_delay + v.1, v.2)
    else (adjusted_delay, g)
  (max withNoise.1 (base_delay * 0.2), withNoise.2)

/-- The pause kinds accepted by `get_pause_delay`; `other` stands for
any string absent from `pause_multipliers` (dict default 1.0). -/
inductive PauseType where
  | comma | period | semicolon | newline | thinking | brace | other
  deriving DecidableEq

/-- `pause_multipliers.get(pause_type, 1.0)`. -/
def pause_multiplier : PauseType → ℚ
  | .comma => 2.0
  | .period => 3.0
  | .semicolon => 2.5
  | .newline => 1.5
  | .thinking => 4.0
  | .brace => 1.8
  | .other => 1.0

/-- `TypingRealism.get_pause_delay`.  The one-sided noise
`max(0, random.gauss(0, pause_delay * 0.4 * randomness))` is consumed
only when `randomness > 0`. -/
def get_pause_delay (tr : TypingRealism) (kind : PauseType)
    (g : RandState) : ℚ × RandState :=
  let base_delay : ℚ := 1 / tr.base_speed
  let pause_delay : ℚ :=
    if tr.realistic then base_delay * pause_multiplier kind else base_delay
  if tr.randomness > 0 then
    let v := randGauss (pause_delay * 0.4 * tr.randomness) g
    (pause_delay + max 0 v.1, v.2)
  else (pause_delay, g)

/-- The pause-classification chain of `_generate_realistic_typing_frames`
(`if char in ',.;': ... elif char in '.!?': ... elif char == newline:
... elif char in braces: ...`), written exactly in source order. -/
def pause_class (c : Char) : Option PauseType :=
  if c ∈ [',', '.', ';'] then some PauseType.comma
  else if c ∈ ['.', '!', '?'] then some PauseType.period
  else if c = '\n' then some PauseType.newline
  else if c ∈ ['{', '}', '[', ']', '(', ')'] then some PauseType.brace
  else none

/-- C4: with `realistic=False` and `randomness=0`, `get_character_delay`
returns exactly `1 / base_speed` for every character, context, position
and randomness state. -/
theorem char_delay_uniform_exact (bs : ℚ) (c : Char) (ctx : List Char)
    (pos : ℕ) (g : RandState) (hbs : 0 < bs) :
    (get_character_delay ⟨bs, false, 0⟩ c ctx pos g).1 = 1 / bs := by
  have hb : (0 : ℚ) < 1 / bs := by positivity
  simp only [get_character_delay, Bool.false_eq_true, if_false,
    gt_iff_lt, lt_self_iff_false]
  exact max_eq_left (by nlinarith)

/-- C4 witness: at `base_speed = 30` the uniform delay is `1/30`. -/
theorem char_delay_uniform_exact_witness :
    (get_character_delay ⟨30, false, 0⟩ 'a' [] 0 ⟨fun _ => 0, 0⟩).1 = 1 / 30 :=
  char_delay_uniform_exact 30 'a' [] 0 ⟨fun _ => 0, 0⟩ (by norm_num)

/-- C5: for every configuration, character, context, position and
randomness draw, the returned delay is at least `(1/base_speed) * 0.2`
(the final clamp of `get_character_delay`). -/
theorem char_delay_min_floor (tr : TypingRealism) (c : Char)
    (ctx : List Char) (pos : ℕ) (g : RandState) :
    1 / tr.base_speed * 0.2 ≤ (get_character_delay tr c ctx pos g).1 := by
  simp only [get_character_delay]
  exact le_max_right _ _

/-- C9: for every pause kind, configuration and randomness draw, the
pause delay is at least its deterministic (`randomness = 0`) value:
the noise term is clamped at 0 from below. -/
theorem pause_delay_ge_deterministic (tr : TypingRealism) (k : PauseType)
    (g g' : RandState) :
    (get_pause_delay ⟨tr.base_speed, tr.realistic, 0⟩ k g').1 ≤
      (get_pause_delay tr k g).1 := by
  simp only [get_pause_delay, gt_iff_lt, lt_self_iff_false, if_false]
  split
  · split
    · exact le_add_of_nonneg_right (le_max_left 0 _)
    · exact le_refl _
  · split
    · exact le_add_of_nonneg_right (le_max_left 0 _)
    · exact le_refl _

/-- C1: evaluating the pause classifier at the failing input: the
character `'.'` is caught by the first branch (`char in ',.;'`) and so
receives the comma-class pause (multiplier 2.0), not the period-class
pause (multiplier 3.0) that the spec assigns to it; the `'.'` listed in
the subsequent `elif char in '.!?'` test is unreachable. -/
theorem period_char_gets_comma_pause :
    pause_class '.' = some PauseType.comma ∧
      PauseType.comma ≠ PauseType.period ∧
      pause_multiplier PauseType.comma = 2 ∧
      pause_multiplier PauseType.period = 3 := by
  refine ⟨by decide, by decide, ?_, ?_⟩ <;> norm_num [pause_multiplier]

/-- Modelled from the spec's words for comparison with the source
(C3): "apply the smallest such multiplier" over all fast-pattern
entries occurring in the window. -/
def spec_smallest_fast_mult (window : List Char) : ℚ :=
  ((fast_patterns.filter (fun e => isSubstring e.1 window)).map Prod.snd).foldr
    min 1

/-- Concrete context for the C3 counterexample: the window around
position 0 contains both a matched bracket pair and a keyword
fragment. -/
def ctx0 : List Char := "def f():".data

/-- C3 counterexample: in the window around position 0 of `def f():`
both `()` (multiplier 0.8) and `def ` (multiplier 0.6) occur, yet the
loop applies 0.8 — the multiplier of the first table entry that
matches — because it `break`s after the first hit, so the applied
multiplier is not the smallest one occurring in the window. -/
theorem fast_mult_not_smallest :
    fast_pattern_mult (windowAt ctx0 0) = 0.8 ∧
      spec_smallest_fast_mult (windowAt ctx0 0) = 0.6 ∧
      ("def ".data, (0.6 : ℚ)) ∈ fast_patterns ∧
      isSubstring "def ".data (windowAt ctx0 0) = true ∧
      (0.6 : ℚ) < 0.8 := by
  refine ⟨?_, ?_, ?_, by decide, by norm_num⟩
  · have h : fast_patterns.find? (fun e => isSubstring e.1 (windowAt ctx0 0))
        = some ("()".data, 0.8) := by
      simp only [fast_patterns]
      exact List.find?_cons_of_pos _ (by decide)
    simp only [fast_pattern_mult, h]
    exact min_eq_right (by norm_num)
  · have h : fast_patterns.filter (fun e => isSubstring e.1 (windowAt ctx0 0))
        = [("()".data, 0.8), ("def ".data, 0.6)] := by
      simp +decide only [fast_patterns, List.filter_cons, if_true, if_false,
        List.filter_nil]
    simp only [spec_smallest_fast_mult, h, List.map_cons, List.map_nil,
      List.foldr]
    norm_num [min_def]
  · simp only [fast_patterns]
    exact List.mem_cons_of_mem _ (List.mem_cons_of_mem _
      (List.mem_cons_of_mem _ (List.mem_cons_of_mem _ (List.mem_cons_of_mem _
      (List.mem_cons_of_mem _ (List.mem_cons_of_mem _ (List.mem_cons_of_mem _
      (List.mem_cons_of_mem _ (List.mem_cons_of_mem _ (List.mem_cons_of_mem _
      (List.mem_cons_of_mem _ (List.mem_cons_of_mem _ (List.mem_cons_of_mem _
      (List.mem_cons_of_mem _ (List.mem_cons_self _ _)))))))))))))))

/-- C3 amended: the multiplier applied by the fast-pattern scan is that
of the first entry, in table insertion order, whose pattern occurs in
the window (all table multipliers are at most 1, so the `min` with the
initial 1.0 is that entry's multiplier); later entries are ignored even
when smaller. -/
theorem fast_mult_is_first_match (w : List Char) (e : List Char × ℚ)
    (h : fast_patterns.find? (fun x => isSubstring x.1 w) = some e) :
    fast_pattern_mult w = e.2 := by
  have hm : e ∈ fast_patterns := List.mem_of_find?_eq_some h
  have hle : e.2 ≤ 1 := by
    simp only [fast_patterns] at hm
    fin_cases hm <;> norm_num
  simp only [fast_pattern_mult, h]
  exact min_eq_right hle

/-- C3 amended, witness: on the `def f():` window the first matching
entry is `()` with multiplier 0.8, and that is what is applied. -/
theorem fast_mult_is_first_match_witness :
    fast_pattern_mult (windowAt ctx0 0) = (0.8 : ℚ) :=
  fast_mult_is_first_match (windowAt ctx0 0) ("()".data, 0.8)
    (by simp only [fast_patterns]
        exact List.find?_cons_of_pos _ (by decide))

/-- Python's `int(x)` conversion: truncation toward zero. -/
def pyInt (q : ℚ) : ℤ := if 0 ≤ q then ⌊q⌋ else ⌈q⌉

/-- The loop body of `_generate_realistic_typing_frames`, walking the
remaining characters.  Each step computes the character delay, adds the
matching pause delay (per `pause_class`), accumulates time, converts it
to a whole number of frames, and emits the event
`(revealCount, framesWritten)` with `framesWritten = max(1, framesToGenerate)`. -/
def realisticAux (tr : TypingRealism) (frame_time : ℚ) (code : List Char) :
    List Char → ℕ → ℚ → RandState → List (ℕ × ℕ)
  | [], _, _, _ => []
  | c :: rest, pos, acc, g =>
    let d1 := get_character_delay tr c code pos g
    let d2 :=
      match pause_class c with
      | some k =>
        let p := get_pause_delay tr k d1.2
        (d1.1 + p.1, p.2)
      | none => d1
    let acc2 := acc + d2.1
    let frames_to_generate := pyInt (acc2 / frame_time)
    (pos + 1, (max 1 frames_to_generate).toNat) ::
      realisticAux tr frame_time code rest (pos + 1)
        (acc2 - frames_to_generate * frame_time) d2.2

/-- `_generate_realistic_typing_frames`: the reveal events of one code
block, starting from position 0 and accumulated time 0, with
`frame_time = 1.0 / fps`. -/
def realistic_frames (tr : TypingRealism) (fps : ℕ) (code : List Char)
    (g : RandState) : List (ℕ × ℕ) :=
  realisticAux tr (1 / (fps : ℚ)) code code 0 0 g

/-- The flat sequence of per-frame reveal counts written to the sink:
each event `(r, n)` writes the frame with reveal count `r` exactly `n`
times. -/
def framesOf (evs : List (ℕ × ℕ)) : List ℕ :=
  (evs.map (fun e => List.replicate e.2 e.1)).flatten

/-- `_generate_uniform_typing_frames`: the per-frame reveal counts of
uniform (classic) mode. -/
def uniform_frames (typing_speed fps : ℕ) (code : List Char) : List ℕ :=
  let total_chars := code.length
  let chars_per_frame : ℚ := (typing_speed : ℚ) / (fps : ℚ)
  let total_frames := (pyInt ((total_chars : ℚ) / chars_per_frame)).toNat + 1
  (List.range total_frames).map fun (frame_num : ℕ) =>
    min (pyInt ((frame_num : ℚ) * chars_per_frame)).toNat total_chars

theorem realisticAux_map_fst (tr : TypingRealism) (ft : ℚ) (code : List Char) :
    ∀ (rest : List Char) (pos : ℕ) (acc : ℚ) (g : RandState),
      (realisticAux tr ft code rest pos acc g).map Prod.fst
        = List.range' (pos + 1) rest.length := by
  intro rest
  induction rest with
  | nil => intro pos acc g; simp [realisticAux]
  | cons c rest ih =>
    intro pos acc g
    simp only [realisticAux, List.map_cons, ih, List.length_cons]
    rw [List.range'_succ]

theorem realisticAux_snd_ge_one (tr : TypingRealism) (ft : ℚ)
    (code : List Char) :
    ∀ (rest : List Char) (pos : ℕ) (acc : ℚ) (g : RandState) (e : ℕ × ℕ),
      e ∈ realisticAux tr ft code rest pos acc g → 1 ≤ e.2 := by
  intro rest
  induction rest with
  | nil => intro pos acc g e he; simp [realisticAux] at he
  | cons c rest ih =>
    intro pos acc g e he
    simp only [realisticAux, List.mem_cons] at he
    rcases he with rfl | he
    · exact Int.toNat_le_toNat (le_max_left 1 _)
    · exact ih _ _ _ _ he

theorem chain'_le_range' (n : ℕ) : ∀ s : ℕ,
    List.Chain' (· ≤ ·) (List.range' s n) := by
  induction n with
  | zero => intro s; simp
  | succ m ih =>
    intro s
    rw [List.range'_succ]
    refine List.chain'_cons'.mpr ⟨?_, ih (s + 1)⟩
    intro y hy
    cases m with
    | zero => simp at hy
    | succ k =>
      rw [List.range'_succ] at hy
      simp only [List.head?_cons, Option.mem_def, Option.some.injEq] at hy
      omega

theorem range'_getLast? : ∀ (n s : ℕ),
    (List.range' s (n + 1)).getLast? = some (s + n)
  | 0, s => by rw [List.range'_succ]; simp
  | m + 1, s => by
    rw [List.range'_succ, List.range'_succ, List.getLast?_cons_cons,
      ← List.range'_succ, range'_getLast? m (s + 1)]
    congr 1
    omega

theorem chain'_le_replicate (n a : ℕ) :
    List.Chain' (· ≤ ·) (List.replicate n a) := by
  induction n with
  | zero => simp
  | succ m ih =>
    rw [List.replicate_succ]
    refine List.chain'_cons'.mpr ⟨?_, ih⟩
    intro y hy
    cases m with
    | zero => simp at hy
    | succ k =>
      rw [List.replicate_succ] at hy
      simp only [List.head?_cons, Option.mem_def, Option.some.injEq] at hy
      omega

theorem replicate_getLast? (a : ℕ) : ∀ n : ℕ, 1 ≤ n →
    (List.replicate n a).getLast? = some a
  | 0, h => by omega
  | 1, _ => by simp
  | n + 2, _ => by
    rw [List.replicate_succ, List.replicate_succ, List.getLast?_cons_cons,
      ← List.replicate_succ, replicate_getLast? a (n + 1) (by omega)]

theorem framesOf_cons (e : ℕ × ℕ) (evs : List (ℕ × ℕ)) :
    framesOf (e :: evs) = List.replicate e.2 e.1 ++ framesOf evs := by
  simp [framesOf]

theorem framesOf_head? (e : ℕ × ℕ) (evs : List (ℕ × ℕ)) (h : 1 ≤ e.2) :
    (framesOf (e :: evs)).head? = some e.1 := by
  rw [framesOf_cons]
  obtain ⟨r, n⟩ := e
  cases n with
  | zero => omega
  | succ m => rw [List.replicate_succ]; simp

theorem chain'_framesOf (evs : List (ℕ × ℕ))
    (h1 : ∀ e ∈ evs, 1 ≤ e.2)
    (h2 : List.Chain' (· ≤ ·) (evs.map Prod.fst)) :
    List.Chain' (· ≤ ·) (framesOf evs) := by
  induction evs with
  | nil => simp [framesOf]
  | cons e rest ih =>
    rw [framesOf_cons]
    have h2' : List.Chain' (· ≤ ·) (rest.map Prod.fst) := by
      simpa using h2.tail
    refine List.chain'_append.mpr
      ⟨chain'_le_replicate _ _,
       ih (fun x hx => h1 x (List.mem_cons_of_mem _ hx)) h2', ?_⟩
    intro x hx y hy
    rw [replicate_getLast? e.1 e.2 (h1 e (List.mem_cons_self _ _))] at hx
    simp only [Option.mem_def, Option.some.injEq] at hx
    cases rest with
    | nil => simp [framesOf] at hy
    | cons e' rest' =>
      rw [framesOf_head? e' rest'
        (h1 e' (List.mem_cons_of_mem _ (List.mem_cons_self _ _)))] at hy
      simp only [Option.mem_def, Option.some.injEq] at hy
      have : e.1 ≤ e'.1 := by
        simp only [List.map_cons] at h2
        exact (List.chain'_cons.mp h2).1
      omega

theorem framesOf_length_ge (evs : List (ℕ × ℕ))
    (h : ∀ e ∈ evs, 1 ≤ e.2) :
    evs.length ≤ (framesOf evs).length := by
  induction evs with
  | nil => simp [framesOf]
  | cons e rest ih =>
    rw [framesOf_cons, List.length_append, List.length_replicate,
      List.length_cons]
    have he := h e (List.mem_cons_self _ _)
    have hr := ih (fun x hx => h x (List.mem_cons_of_mem _ hx))
    omega

/-- C6: the realistic scheduler writes at least one frame for every
character's reveal event (`max(1, frames_to_generate)`), so every
character appears and the number of typing frames is at least the
length of the code. -/
theorem realistic_one_frame_per_char (tr : TypingRealism) (fps : ℕ)
    (code : List Char) (g : RandState) :
    ((realistic_frames tr fps code g).all (fun e => decide (1 ≤ e.2))) = true ∧
      code.length ≤ (framesOf (realistic_frames tr fps code g)).length := by
  constructor
  · exact List.all_eq_true.mpr fun e he =>
      decide_eq_true (realisticAux_snd_ge_one tr _ code code 0 0 g e he)
  · have hlen : (realistic_frames tr fps code g).length = code.length := by
      have h := realisticAux_map_fst tr (1 / (fps : ℚ)) code code 0 0 g
      calc (realistic_frames tr fps code g).length
          = ((realistic_frames tr fps code g).map Prod.fst).length := by
            rw [List.length_map]
        _ = (List.range' 1 code.length).length := by
            rw [realistic_frames, h]
        _ = code.length := by simp
    calc code.length = (realistic_frames tr fps code g).length := hlen.symm
      _ ≤ _ := framesOf_length_ge _
            (fun e he => realisticAux_snd_ge_one tr _ code code 0 0 g e he)

theorem chain'_le_map_range' (f : ℕ → ℕ) (hf : ∀ k, f k ≤ f (k + 1)) :
    ∀ (n s : ℕ), List.Chain' (· ≤ ·) ((List.range' s n).map f)
  | 0, s => by simp
  | m + 1, s => by
    rw [List.range'_succ, List.map_cons]
    refine List.chain'_cons'.mpr ⟨?_, chain'_le_map_range' f hf m (s + 1)⟩
    intro y hy
    cases m with
    | zero => simp at hy
    | succ k =>
      rw [List.range'_succ, List.map_cons] at hy
      simp only [List.head?_cons, Option.mem_def, Option.some.injEq] at hy
      rw [← hy]
      exact hf s

/-- C2 amended: in both scheduling modes the emitted reveal counts are
monotonically non-decreasing, and in realistic mode the last typing
event's reveal count equals `len(code)`; in uniform mode the final
typing frame's reveal count may fall short of `len(code)` (see the
counterexample), the fully revealed frame being supplied afterwards by
the hold phase of `generate_video`. -/
theorem reveal_monotone_and_terminal (tr : TypingRealism) (ts fps : ℕ)
    (code : List Char) (g : RandState) :
    List.Chain' (· ≤ ·) (framesOf (realistic_frames tr fps code g)) ∧
      (code ≠ [] →
        ((realistic_frames tr fps code g).map Prod.fst).getLast?
          = some code.length) ∧
      List.Chain' (· ≤ ·) (uniform_frames ts fps code) := by
  have hfst := realisticAux_map_fst tr (1 / (fps : ℚ)) code code 0 0 g
  refine ⟨?_, ?_, ?_⟩
  · refine chain'_framesOf _
      (fun e he => realisticAux_snd_ge_one tr _ code code 0 0 g e he) ?_
    rw [realistic_frames, hfst]
    exact chain'_le_range' _ _
  · intro hne
    rw [realistic_frames, hfst]
    obtain ⟨m, hm⟩ : ∃ m, code.length = m + 1 := by
      cases code with
      | nil => exact absurd rfl hne
      | cons c cs => exact ⟨cs.length, rfl⟩
    rw [hm, range'_getLast? m 1]
    congr 1
    omega
  · simp only [uniform_frames]
    rw [List.range_eq_range']
    refine chain'_le_map_range' _ ?_ _ 0
    intro k
    refine min_le_min (Int.toNat_le_toNat ?_) (le_refl _)
    have hc : (0 : ℚ) ≤ (ts : ℚ) / (fps : ℚ) := by positivity
    have h0 : (0 : ℚ) ≤ (k : ℚ) * ((ts : ℚ) / (fps : ℚ)) := by positivity
    have h1 : (k : ℚ) * ((ts : ℚ) / (fps : ℚ))
        ≤ ((k + 1 : ℕ) : ℚ) * ((ts : ℚ) / (fps : ℚ)) := by
      apply mul_le_mul_of_nonneg_right _ hc
      push_cast
      linarith
    simp only [pyInt, if_pos h0, if_pos (le_trans h0 h1)]
    exact Int.floor_le_floor h1

/-- Concrete configuration for witnesses: `typing_speed=15`,
`realistic=True`, `randomness=1.0`. -/
def tr0 : TypingRealism := ⟨15, true, 1⟩

/-- Concrete randomness state: all standard-normal draws are 0. -/
def g0 : RandState := ⟨fun _ => 0, 0⟩

/-- C2 amended, witness: for the two-character snippet `ab` the
realistic scheduler's last event reveals the whole snippet. -/
theorem reveal_monotone_and_terminal_witness :
    ((realistic_frames tr0 30 "ab".data g0).map Prod.fst).getLast?
      = some ("ab".data.length) :=
  (reveal_monotone_and_terminal tr0 15 30 "ab".data g0).2.1 (by decide)

/-- C2 counterexample: with `typing_speed = 9`, `fps = 30` and a
10-character snippet, uniform mode's last typing frame reveals only 9
characters (`chars_per_frame = 0.3`, `total_frames = int(10/0.3)+1 =
34`, `int(33 * 0.3) = 9`), so the reveal count at the last emitted
typing event does not reach `len(code)`. -/
theorem uniform_terminal_shortfall :
    (List.replicate 10 'a').length = 10 ∧
      (uniform_frames 9 30 (List.replicate 10 'a')).getLast? = some 9 ∧
      (9 : ℕ) ≠ 10 := by
  refine ⟨by decide, ?_, by decide⟩
  have hc : ((9 : ℕ) : ℚ) / ((30 : ℕ) : ℚ) = 3 / 10 := by norm_num
  simp only [uniform_frames, List.length_replicate, hc]
  have h2 : ((10 : ℕ) : ℚ) / ((3 : ℚ) / 10) = 100 / 3 := by norm_num
  rw [h2]
  have h3 : pyInt ((100 : ℚ) / 3) = 33 := by
    rw [pyInt, if_pos (by norm_num)]
    norm_num
  rw [h3]
  have h4 : ((33 : ℤ)).toNat + 1 = 33 + 1 := by decide
  rw [h4, List.range_succ, List.map_append, List.map_cons, List.map_nil,
    List.getLast?_concat]
  have h5 : ((33 : ℕ) : ℚ) * ((3 : ℚ) / 10) = 99 / 10 := by norm_num
  rw [h5]
  have h6 : pyInt ((99 : ℚ) / 10) = 9 := by
    rw [pyInt, if_pos (by norm_num)]
    norm_num
  rw [h6]
  decide

/-- RGB colour triple. -/
def Color := ℕ × ℕ × ℕ

/-- One drawing call recorded while compositing a frame. -/
inductive DrawOp where
  | text (x y : ℤ) (s : List Char) (color : Color)
  | rect (x1 y1 x2 y2 : ℤ) (color : Color)

/-- The text-measurement collaborator (`self.font`): the width of a
space glyph (from `font.getbbox(' ')`) and the right edge `bbox[2]`
returned by `draw.textbbox((x, y), line, font)`. -/
structure Font where
  spaceWidth : ℤ
  textRight : ℤ → ℤ → List Char → ℤ

/-- The configuration fields consumed by `create_frame`: dimensions,
font size, theme colours, and the token-type colour lookup
`self.highlighter.colors.get(token_type, colors['default'])`. -/
structure RenderCfg where
  width : ℕ
  height : ℕ
  font_size : ℕ
  bg : Color
  cursor_color : Color
  colorOf : String → Color

/-- The scan loop of `_calculate_indentation_width`: width units of the
leading run of spaces/tabs (tab counts 4, space counts 1). -/
def indent_units : List Char → ℕ
  | [] => 0
  | c :: rest =>
    if c = '\t' then 4 + indent_units rest
    else if c = ' ' then 1 + indent_units rest
    else 0

/-- `_calculate_indentation_width(text, start_pos)`: convert width
units to pixels with the measured space-glyph width, or 8 px/unit when
no font is available. -/
def calculate_indentation_width (font? : Option Font) (text : List Char)
    (start_pos : ℕ) : ℤ :=
  match font? with
  | some f => (indent_units (text.drop start_pos) : ℤ) * f.spaceWidth
  | none => (indent_units (text.drop start_pos) : ℤ) * 8

/-- The draw call guarded by `if current_line and self.font:` when a
newline is hit inside `create_frame`'s character loop. -/
def newline_draw (font? : Option Font) (color : Color) (x y : ℤ)
    (cur : List Char) : List DrawOp :=
  match cur, font? with
  | [], _ => []
  | _ :: _, none => []
  | c :: cs, some _ => [DrawOp.text x y (c :: cs) color]

/-- The trailing `if current_line and self.font:` after a token's
characters are exhausted: draw the buffered line and advance the pen
to the measured right edge (the pen does not advance when nothing is
drawn). -/
def trailing_draw (font? : Option Font) (color : Color) (x y : ℤ)
    (cur : List Char) : List DrawOp × ℤ :=
  match cur, font? with
  | [], _ => ([], x)
  | _ :: _, none => ([], x)
  | c :: cs, some f => ([DrawOp.text x y (c :: cs) color],
      f.textRight x y (c :: cs))

/-- The character loop of `create_frame` over one token's visible
substring: state is `(ops so far, x, y, current_line)`; a newline draws
the buffer, advances `y` by `line_height` and resets `x` to
`left_margin + indentation`. -/
def processChars (font? : Option Font) (text : List Char) (color : Color)
    (line_height : ℤ) :
    List Char → ℕ → ℤ → ℤ → List Char → List DrawOp × ℤ × ℤ × List Char
  | [], _, x, y, cur => ([], x, y, cur)
  | ch :: rest, abspos, x, y, cur =>
    if ch = '\n' then
      let r := processChars font? text color line_height rest (abspos + 1)
        (20 + calculate_indentation_width font? text (abspos + 1))
        (y + line_height) []
      (newline_draw font? color x y cur ++ r.1, r.2)
    else
      processChars font? text color line_height rest (abspos + 1) x y
        (cur ++ [ch])

/-- The token loop of `create_frame`: consume characters across tokens
up to `current_pos`, with the two `break` conditions of the source
(`char_count >= current_pos` and `chars_to_process <= 0`). -/
def processTokens (cfg : RenderCfg) (font? : Option Font)
    (text : List Char) (line_height : ℤ) (current_pos : ℕ) :
    List (List Char × String) → ℕ → ℤ → ℤ → List DrawOp × ℤ × ℤ
  | [], _, x, y => ([], x, y)
  | (tok, ty) :: rest, char_count, x, y =>
    if current_pos ≤ char_count then ([], x, y)
    else
      let chars_to_process := min tok.length (current_pos - char_count)
      if chars_to_process = 0 then ([], x, y)
      else
        let color := cfg.colorOf ty
        let r := processChars font? text color line_height
          (tok.take chars_to_process) char_count x y []
        let fin := trailing_draw font? color r.2.1 r.2.2.1 r.2.2.2
        if current_pos ≤ char_count + chars_to_process then
          (r.1 ++ fin.1, fin.2, r.2.2.1)
        else
          let r2 := processTokens cfg font? text line_height current_pos
            rest (char_count + chars_to_process) fin.2 r.2.2.1
          (r.1 ++ fin.1 ++ r2.1, r2.2)

/-- A composed frame: dimensions, background fill, and the drawing
calls made on top of it, in order. -/
structure Frame where
  width : ℕ
  height : ℕ
  bg : Color
  ops : List DrawOp

/-- `create_frame(text_content, highlighted_tokens, current_pos)`:
composite the visible prefix and, when the snippet is not fully
revealed, the cursor rectangle
`[x, y, x + 2, y + font_size]` at the final pen position. -/
def create_frame (cfg : RenderCfg) (font? : Option Font)
    (text_content : List Char) (tokens : List (List Char × String))
    (current_pos : ℕ) : Frame :=
  let r := processTokens cfg font? text_content ((cfg.font_size : ℤ) + 4)
    current_pos tokens 0 20 20
  let cursor_ops : List DrawOp :=
    if current_pos < text_content.length then
      [DrawOp.rect r.2.1 r.2.2 (r.2.1 + 2) (r.2.2 + (cfg.font_size : ℤ))
        cfg.cursor_color]
    else []
  ⟨cfg.width, cfg.height, cfg.bg, r.1 ++ cursor_ops⟩

/-- Recognise the cursor rectangle among drawing calls. -/
def isRect : DrawOp → Bool
  | .rect _ _ _ _ _ => true
  | .text _ _ _ _ => false

theorem newline_draw_no_rect (font? : Option Font) (color : Color)
    (x y : ℤ) (cur : List Char) :
    (newline_draw font? color x y cur).filter isRect = [] := by
  rcases cur with _ | ⟨c, cs⟩ <;> rcases font? with _ | f <;>
    simp [newline_draw, isRect]

theorem trailing_draw_no_rect (font? : Option Font) (color : Color)
    (x y : ℤ) (cur : List Char) :
    (trailing_draw font? color x y cur).1.filter isRect = [] := by
  rcases cur with _ | ⟨c, cs⟩ <;> rcases font? with _ | f <;>
    simp [trailing_draw, isRect]

theorem processChars_no_rect (font? : Option Font) (text : List Char)
    (color : Color) (lh : ℤ) :
    ∀ (chars : List Char) (abspos : ℕ) (x y : ℤ) (cur : List Char),
      (processChars font? text color lh chars abspos x y cur).1.filter isRect
        = [] := by
  intro chars
  induction chars with
  | nil => intros; simp [processChars]
  | cons ch rest ih =>
    intro abspos x y cur
    simp only [processChars]
    split
    · rw [List.filter_append, newline_draw_no_rect, ih, List.append_nil]
    · exact ih _ _ _ _

theorem processTokens_no_rect (cfg : RenderCfg) (font? : Option Font)
    (text : List Char) (lh : ℤ) (cp : ℕ) :
    ∀ (toks : List (List Char × String)) (cc : ℕ) (x y : ℤ),
      (processTokens cfg font? text lh cp toks cc x y).1.filter isRect
        = [] := by
  intro toks
  induction toks with
  | nil => intros; simp [processTokens]
  | cons t rest ih =>
    intro cc x y
    obtain ⟨tok, ty⟩ := t
    simp only [processTokens]
    split
    · simp
    · split
      · simp
      · split
        · rw [List.filter_append, processChars_no_rect,
            trailing_draw_no_rect, List.append_nil]
        · rw [List.filter_append, List.filter_append,
            processChars_no_rect, trailing_draw_no_rect, ih,
            List.append_nil, List.append_nil]

/-- C8: the rectangle draw calls of a composed frame are exactly the
cursor: one rectangle `[x, y, x+2, y+font_size]` in the theme's cursor
colour at the final pen position when `current_pos < len(code)`, and
none at all when the snippet is fully revealed. -/
theorem cursor_iff_not_fully_revealed (cfg : RenderCfg)
    (font? : Option Font) (text : List Char)
    (tokens : List (List Char × String)) (pos : ℕ) :
    ((create_frame cfg font? text tokens pos).ops.filter isRect
      = (if pos < text.length then
          [DrawOp.rect
            (processTokens cfg font? text ((cfg.font_size : ℤ) + 4) pos
              tokens 0 20 20).2.1
            (processTokens cfg font? text ((cfg.font_size : ℤ) + 4) pos
              tokens 0 20 20).2.2
            ((processTokens cfg font? text ((cfg.font_size : ℤ) + 4) pos
              tokens 0 20 20).2.1 + 2)
            ((processTokens cfg font? text ((cfg.font_size : ℤ) + 4) pos
              tokens 0 20 20).2.2 + (cfg.font_size : ℤ))
            cfg.cursor_color]
        else [])) ∧
      (((create_frame cfg font? text tokens pos).ops.any isRect = true)
        ↔ pos < text.length) := by
  have hmain : (create_frame cfg font? text tokens pos).ops.filter isRect
      = (if pos < text.length then
          [DrawOp.rect
            (processTokens cfg font? text ((cfg.font_size : ℤ) + 4) pos
              tokens 0 20 20).2.1
            (processTokens cfg font? text ((cfg.font_size : ℤ) + 4) pos
              tokens 0 20 20).2.2
            ((processTokens cfg font? text ((cfg.font_size : ℤ) + 4) pos
              tokens 0 20 20).2.1 + 2)
            ((processTokens cfg font? text ((cfg.font_size : ℤ) + 4) pos
              tokens 0 20 20).2.2 + (cfg.font_size : ℤ))
            cfg.cursor_color]
        else []) := by
    simp only [create_frame, List.filter_append, processTokens_no_rect,
      List.nil_append]
    split <;> simp [isRect]
  refine ⟨hmain, ?_⟩
  have hfa : ∀ l : List DrawOp, l.any isRect = true ↔ l.filter isRect ≠ [] := by
    intro l
    rw [List.any_eq_true, Ne, List.filter_eq_nil_iff]
    constructor
    · rintro ⟨a, ha, hp⟩ hall
      exact absurd hp (by simpa using hall a ha)
    · intro h
      by_contra hn
      push_neg at hn
      exact h fun a ha => by simpa using hn a ha
  rw [hfa, hmain]
  split
  · simpa
  · simp
    omega

/-- Concrete render configuration for witnesses (the built-in dark
theme's colours, every token type mapped to the default colour). -/
def cfg0 : RenderCfg :=
  ⟨1024, 768, 16, (40, 44, 52), (255, 255, 255), fun _ => (171, 178, 191)⟩

/-- C7: `create_frame` is a pure function of `(code, tokens,
revealCount)`: it consults no randomness state and mutates nothing, so
two calls with identical inputs yield identical frames. -/
theorem create_frame_deterministic (cfg : RenderCfg) (font? : Option Font)
    (text text' : List Char) (tokens tokens' : List (List Char × String))
    (pos pos' : ℕ) (ht : text = text') (htk : tokens = tokens')
    (hp : pos = pos') :
    create_frame cfg font? text tokens pos
      = create_frame cfg font? text' tokens' pos' := by
  subst ht htk hp
  rfl

/-- C7 witness: two renders of the same one-token snippet coincide. -/
theorem create_frame_deterministic_witness :
    create_frame cfg0 none "a".data [("a".data, "default")] 0
      = create_frame cfg0 none "a".data [("a".data, "default")] 0 :=
  create_frame_deterministic cfg0 none _ _ _ _ _ _ rfl rfl rfl

/-- ASCII whitespace stripped by Python's `str.strip()` (space, tab,
newline, carriage return, vertical tab, form feed). -/
def isPyWs (c : Char) : Bool :=
  c = ' ' || c = '\t' || c = '\n' || c = '\r' ||
    c = Char.ofNat 11 || c = Char.ofNat 12

/-- Drop the trailing run of characters satisfying `p`. -/
def dropEndWhile (p : Char → Bool) : List Char → List Char
  | [] => []
  | c :: rest =>
    match dropEndWhile p rest with
    | [] => if p c then [] else [c]
    | d :: t => c :: d :: t

/-- Python `str.strip()` on character lists. -/
def pyStrip (l : List Char) : List Char :=
  dropEndWhile isPyWs (l.dropWhile isPyWs)

/-- Python `str.split('\n')` on character lists. -/
def splitNl : List Char → List (List Char)
  | [] => [[]]
  | c :: rest =>
    match splitNl rest with
    | [] => [[]]
    | h :: t => if c = '\n' then [] :: h :: t else (c :: h) :: t

/-- `CodeBlock.__init__`: language lower-cased (`text` when the tag is
empty), code stripped of surrounding whitespace, lines the
newline-split of the stripped code. -/
structure CodeBlock where
  language : String
  code : List Char
  lines : List (List Char)
  deriving DecidableEq

def mkCodeBlock (language : String) (code : List Char) : CodeBlock where
  language := if language.isEmpty then "text" else language.toLower
  code := pyStrip code
  lines := splitNl (pyStrip code)

/-- The loop of `parse_markdown` over the regex matches
`(language, code)`: a block whose stripped content is empty is
skipped.  The fixed-grammar regex is an external collaborator;
quantifying over arbitrary match lists covers every value it can
return. -/
def parse_markdown : List (String × List Char) → List CodeBlock
  | [] => []
  | (language, code) :: rest =>
    if pyStrip code = [] then parse_markdown rest
    else mkCodeBlock language code :: parse_markdown rest

/-- Does the text begin with a whitespace character? -/
def startsWithWs : List Char → Bool
  | [] => false
  | c :: _ => isPyWs c

/-- Does the text end with a whitespace character? -/
def endsWithWs : List Char → Bool
  | [] => false
  | [c] => isPyWs c
  | _ :: c :: rest => endsWithWs (c :: rest)

theorem startsWithWs_dropWhile (l : List Char) :
    startsWithWs (l.dropWhile isPyWs) = false := by
  induction l with
  | nil => rfl
  | cons c rest ih =>
    rw [List.dropWhile_cons]
    split
    · exact ih
    · rename_i h
      simp only [startsWithWs]
      simpa using h

theorem startsWithWs_dropEndWhile (l : List Char)
    (h : startsWithWs l = false) :
    startsWithWs (dropEndWhile isPyWs l) = false := by
  cases l with
  | nil => rfl
  | cons c rest =>
    simp only [startsWithWs] at h
    cases hd : dropEndWhile isPyWs rest with
    | nil => simp [dropEndWhile, hd, h, startsWithWs]
    | cons d t => simp [dropEndWhile, hd, startsWithWs, h]

theorem endsWithWs_dropEndWhile (l : List Char) :
    endsWithWs (dropEndWhile isPyWs l) = false := by
  induction l with
  | nil => rfl
  | cons c rest ih =>
    cases hd : dropEndWhile isPyWs rest with
    | nil =>
      by_cases h : isPyWs c = true
      · simp [dropEndWhile, hd, h, endsWithWs]
      · simp only [Bool.not_eq_true] at h
        simp [dropEndWhile, hd, h, endsWithWs]
    | cons d t =>
      rw [hd] at ih
      simp only [dropEndWhile, hd, endsWithWs]
      exact ih

theorem parse_markdown_mem (b : CodeBlock) :
    ∀ ms : List (String × List Char), b ∈ parse_markdown ms →
      b.code ≠ [] ∧ startsWithWs b.code = false ∧
        endsWithWs b.code = false ∧ ∃ m ∈ ms, b.code = pyStrip m.2 := by
  intro ms
  induction ms with
  | nil => intro hb; simp [parse_markdown] at hb
  | cons m rest ih =>
    obtain ⟨lang, code⟩ := m
    intro hb
    simp only [parse_markdown] at hb
    by_cases h : pyStrip code = []
    · rw [if_pos h] at hb
      obtain ⟨hne, h1, h2, m', hm', he⟩ := ih hb
      exact ⟨hne, h1, h2, m', List.mem_cons_of_mem _ hm', he⟩
    · rw [if_neg h] at hb
      rcases List.mem_cons.mp hb with rfl | hb'
      · exact ⟨h,
          startsWithWs_dropEndWhile _ (startsWithWs_dropWhile code),
          endsWithWs_dropEndWhile _,
          (lang, code), List.mem_cons_self _ _, rfl⟩
      · obtain ⟨hne, h1, h2, m', hm', he⟩ := ih hb'
        exact ⟨hne, h1, h2, m', List.mem_cons_of_mem _ hm', he⟩

/-- C10: `parse_markdown` keeps exactly the fenced blocks whose
stripped content is non-empty, each kept block's `code` is the fenced
text stripped of surrounding whitespace, and hence no returned block's
code is empty or starts or ends with whitespace. -/
theorem parse_markdown_blocks (ms : List (String × List Char)) :
    parse_markdown ms
      = (ms.filter (fun m => !(pyStrip m.2).isEmpty)).map
          (fun m => mkCodeBlock m.1 m.2) ∧
      ∀ b ∈ parse_markdown ms,
        b.code ≠ [] ∧ startsWithWs b.code = false ∧
          endsWithWs b.code = false ∧ ∃ m ∈ ms, b.code = pyStrip m.2 := by
  refine ⟨?_, fun b hb => parse_markdown_mem b ms hb⟩
  induction ms with
  | nil => rfl
  | cons m rest ih =>
    obtain ⟨lang, code⟩ := m
    simp only [parse_markdown, List.filter_cons]
    by_cases h : pyStrip code = []
    · simp [h, ih, List.isEmpty_iff]
    · simp [h, ih, List.isEmpty_iff]

/-- Concrete match list for the C10 witness. -/
def ms0 : List (String × List Char) := [("python", " x ".data)]

/-- C10 witness: the single block parsed from `ms0` has non-empty,
whitespace-trimmed code equal to the stripped fenced text. -/
theorem parse_markdown_blocks_witness :
    (mkCodeBlock "python" " x ".data).code ≠ [] ∧
      startsWithWs (mkCodeBlock "python" " x ".data).code = false ∧
      endsWithWs (mkCodeBlock "python" " x ".data).code = false ∧
      ∃ m ∈ ms0, (mkCodeBlock "python" " x ".data).code = pyStrip m.2 :=
  (parse_markdown_blocks ms0).2 (mkCodeBlock "python" " x ".data) (by
    have h : parse_markdown ms0 = [mkCodeBlock "python" " x ".data] := by
      simp only [ms0, parse_markdown]
      rw [if_neg (by decide)]
    rw [h]
    exact List.mem_singleton_self _)

end CodeToVideo
